import Mathlib

/-!
Verification of the `jlv` log-file viewer core (`file.go`) against its
natural-language specification.

The development shallowly embeds the Go code of `file.go`:

* byte-level layer (`Jlv.File`): the byte source, the line index built by
  `NewFile`'s scan loop, the raw-byte accessor `File.bytes`, the record
  cache (`cache.item`, `File.item`) including Go's value semantics
  (a method with a value receiver mutates a copy; `l := f.index[n]`
  copies the struct), and the known-tags bookkeeping;
* record/view layer (`Jlv.FileRec`, `Jlv.FileView`): `FileView.Filter`,
  `File.fit`, `decodeLevel`, `FileView.Search`, `FileView.SearchTag`,
  `getIndex` and `len`, over a file abstracted as the per-line pair
  (raw-read result, decoded record) — legitimate because `File.item`
  deterministically decodes the same bytes for the same line;
* view chains (`Jlv.ViewChain`): the `parent` pointers used by
  `FileView.Up`, `FileView.Top` and `rewindTo`.

Machine integers: Go `int` is modelled as `Int` where negative values are
reachable (search cursors, positions) and as `Nat` where the source only
ever passes non-negative values (line numbers into `File.bytes` /
`File.item`; the `n < 0` half of the source's bounds checks is then
vacuous).  Go slices are `List`, with an out-of-range access modelled as
an explicit `Option`/panic outcome wherever the source performs an
unchecked access.  Runtime panics are modelled as `none` / `.panicked`
results.
-/

set_option autoImplicit false

namespace Jlv

/-- A byte of the log file (Go `byte`). -/
abbrev Byte := Nat

/-- The newline byte the index scanner splits on. -/
def newlineByte : Byte := 10

/-- Source constant `cacheSize = 1024`. -/
def cacheSize : Nat := 1024

/-- Source constant `bufSize = 1024` (initial scratch-buffer size). -/
def bufSize : Nat := 1024

/-- A decoded JSON value as the viewer uses it: `tagToString` returns a
`string` value unchanged and renders any other value with `fmt.Sprintf
"%v"`; the rendering is abstracted as the stored string. -/
inductive GoVal where
  | vstr (s : String)
  | vother (rendered : String)
deriving DecidableEq, Repr

/-- Source `tagToString`: a `string` value is returned as is, any other
value is formatted (`fmt.Sprintf("%v", tag)`, abstracted as the stored
rendering). -/
def tagToString : GoVal → String
  | .vstr s => s
  | .vother s => s

/-- A decoded record (`map[string]interface{}`), as an association list of
field name and value.  JSON objects have one value per key, so first-match
lookup coincides with Go map lookup. -/
abbrev Rec := List (String × GoVal)

/-- Go map read `it.m[tag]`. -/
def lookupTag (r : Rec) (tag : String) : Option GoVal :=
  (r.find? (fun p => p.1 = tag)).map (·.2)

/-- Source `line` struct: `{start int64; len int; cached *item}`.  The
`cached` pointer is modelled as an optional heap address. -/
structure Line where
  start : Nat
  len : Nat
  cached : Option Nat := none
deriving DecidableEq, Repr

/-- Source `item` struct: the decoded record `m`, the back pointer `l`
(modelled as a snapshot of the line struct it pointed to), and the LRU
neighbour pointers `n`/`p` as optional heap addresses. -/
structure Item where
  m : Rec
  l : Option Line
  n : Option Nat
  p : Option Nat
deriving DecidableEq, Repr

/-- Source `cache` struct. -/
structure Cache where
  head : Option Nat := none
  tail : Option Nat := none
  len : Nat := 0
deriving DecidableEq, Repr

/-- The byte-level `File`: the byte source contents (`src`, what seek+read
against `f.f` observes), the line index, the cache and its item heap, the
recorded error, the known tags and the role→field-name table.  JSON
decoding (`json.Unmarshal`) is external code, abstracted as the function
field `unmarshal` from the read buffer (`none` = the `nil` slice) to the
resulting record and error. -/
structure File where
  src : List Byte
  index : List Line
  cache : Cache := {}
  heap : List Item := []
  err : Option String := none
  knownTags : List String := []
  tagNames : List String := ["level", "time", "msg"]
  unmarshal : Option (List Byte) → Rec × Option String := fun _ => ([], none)

/-- The byte-by-byte scan of `NewFile`'s indexing loop.  The source reads
the file in `bufSize` chunks, but the inner loop consumes every byte once
in order, carrying `pos` and `length` across chunk boundaries, so the
chunking is invisible in the result: on seeing `'\n'` it appends
`{start: pos, len: length}` and resets (`pos += length+1`, `length = -1`
followed by the loop's `length+1` gives `0`); on any other byte it
increments `length`.  Bytes after the last newline are never recorded. -/
def scanIndex : List Byte → Nat → Nat → List Line → List Line
  | [], _, _, acc => acc
  | b :: rest, pos, length, acc =>
    if b = newlineByte then
      scanIndex rest (pos + length + 1) 0 (acc ++ [{ start := pos, len := length }])
    else
      scanIndex rest pos (length + 1) acc

/-- The indexing stage of `NewFile`: scan the source and record the line
descriptors.  (The subsequent known-tags priming pass
`fillKnownTags`/`sortKnownTags` is modelled separately — see
`sortKnownTagsGo` — because it can panic.) -/
def mkFile (src : List Byte) : File :=
  { src := src, index := scanIndex src 0 0 [] }

/-- Source `File.LinesCount`. -/
def File.LinesCount (f : File) : Nat := f.index.length

/-- Source `File.bytes`: bounds-check `n`, seek to `l.start`, grow the
scratch buffer to `l.len` if it is smaller (`make([]byte, l.len)` is
zero-filled), read into `buffer[:l.len]`, and return `nil` iff the read
error is non-nil.  The global scratch buffer is threaded explicitly.

The external read (`os.File.Read` on a regular file at offset `start`)
returns `min len (src.length - start)` bytes and a non-nil error
(`io.EOF`) exactly when it could read no bytes at all while `len > 0`;
a short but non-empty read reports no error.  The source discards the
returned byte count (`_, f.err = f.f.Read(...)`), so the returned slice
`buffer[:l.len]` keeps stale buffer content past the bytes actually
read.  Result: `(returned slice or none for nil, updated file (err),
updated scratch buffer)`. -/
def File.bytes (f : File) (buffer : List Byte) (n : Nat) :
    Option (List Byte) × File × List Byte :=
  if n < f.index.length then
    let l := f.index.getD n {start := 0, len := 0}
    let buf0 := if buffer.length < l.len then List.replicate l.len 0 else buffer
    let readBytes := (f.src.drop l.start).take l.len
    let buf1 := readBytes ++ buf0.drop readBytes.length
    let readErr := readBytes.length = 0 ∧ 0 < l.len
    if readErr then
      (none, { f with err := some "EOF" }, buf1)
    else
      (some (buf1.take l.len), { f with err := none }, buf1)
  else
    (none, f, buffer)

/-- The sequence of line descriptors that `scanIndex` should produce for a
newline-terminated line sequence starting at byte offset `pos`: one
descriptor per line, each starting one byte after the previous line's
terminating newline. -/
def linesIndex : List (List Byte) → Nat → List Line
  | [], _ => []
  | l :: ls, pos => { start := pos, len := l.length } :: linesIndex ls (pos + l.length + 1)

/-- Byte offset of the `i`-th line in a newline-terminated encoding. -/
def lineOffset : List (List Byte) → Nat → Nat
  | _, 0 => 0
  | [], _ + 1 => 0
  | l :: ls, i + 1 => l.length + 1 + lineOffset ls i

/-- Encoding of a line sequence as a newline-delimited byte source: every
line followed by one `'\n'`. -/
def mkSrc (lines : List (List Byte)) : List Byte :=
  (lines.map (fun l => l ++ [newlineByte])).flatten

/-- Concrete `File` state for the C8 counterexample: the line index records
a 5-byte line starting at offset 0, while the byte source holds only 3
bytes (the source file shrank after indexing, so the OS-level read returns
3 bytes with a nil error). -/
def c8file : File := { src := [65, 66, 67], index := [{ start := 0, len := 5 }] }

/-- Source `File.decodeTag`: scan the role index `t` from `TagLevel` (0)
up to `TagOther` (3), stopping at the first role whose configured field
name (`f.tagNames[t]`) equals `tag`; `tagNames` always has the three role
entries. -/
def decodeTagGo (tagNames : List String) (tag : String) : Nat :=
  if tag = tagNames.getD 0 "" then 0
  else if tag = tagNames.getD 1 "" then 1
  else if tag = tagNames.getD 2 "" then 2
  else 3

/-- Source `File.addKnownTag`: append `tag` unless already present. -/
def addKnownTagGo (knownTags : List String) (tag : String) : List String :=
  if knownTags.contains tag then knownTags else knownTags ++ [tag]

/-- Source `File.fillKnownTags` restricted to one decoded record: add every
field name of the record.  Go map iteration order is modelled by the
record's list order (for a single-field record the order is immaterial). -/
def fillKnownTagsGo (knownTags : List String) (r : Rec) : List String :=
  r.foldl (fun kt p => addKnownTagGo kt p.1) knownTags

/-- Go slice store `s[i] = x`: writing out of range panics (modelled as
`none`). -/
def setAtGo (l : List String) (i : Nat) (x : String) : Option (List String) :=
  if i < l.length then some (l.set i x) else none

/-- Source `File.sortKnownTags`: allocate `tags := make([]string,
len(knownTags))`, then place every known tag — `TagTime` at `tags[0]`,
`TagLevel` at `tags[1]`, `TagMessage` at `tags[2]`, and every other tag at
`tags[pos]` with `pos` starting at 3 and incrementing.  Every one of these
stores is an unchecked slice write; `none` models the resulting
index-out-of-range panic. -/
def sortKnownTagsGo (tagNames knownTags : List String) : Option (List String) :=
  let init : List String := List.replicate knownTags.length ""
  (knownTags.foldl
    (fun acc t =>
      acc.bind (fun s =>
        match decodeTagGo tagNames t with
        | 1 => (setAtGo s.1 0 t).map (fun ts => (ts, s.2))
        | 0 => (setAtGo s.1 1 t).map (fun ts => (ts, s.2))
        | 2 => (setAtGo s.1 2 t).map (fun ts => (ts, s.2))
        | _ => (setAtGo s.1 s.2 t).map (fun ts => (ts, s.2 + 1))))
    (some (init, 3))).map (·.1)

/-- Source `cache.item`.  CRUCIAL Go detail: the method is declared with a
VALUE receiver (`func (c cache) item(forLine *line) *item`), so all
mutations of `c.head`/`c.tail`/`c.len` happen on a copy of the caller's
`cache` struct; likewise `forLine` points at the caller's stack copy of
the line struct.  The embedding therefore returns the mutated receiver
copy, the updated item heap, the mutated line copy and the address of the
returned item; the caller (`File.item`) keeps only the heap and the
address, exactly as Go does.  In the eviction branch the source reads
`c.head.p` and writes through `c.tail` after `c.tail = c.head.p`; since no
code ever assigns `p` pointers, those dereferences can hit `nil` — `none`
models such a nil-dereference panic (the branch is unreachable from the
initial state because the persistent `len` never grows). -/
def Cache.itemGo (c : Cache) (heap : List Item) (forLine : Line) :
    Option (Cache × List Item × Line × Nat) :=
  if c.len < cacheSize then
    let addr := heap.length
    let it : Item := { m := [], l := some forLine, n := c.head, p := none }
    let c' : Cache := { head := some addr,
                        tail := if c.tail = none then some addr else c.tail,
                        len := c.len + 1 }
    some (c', heap ++ [it], { forLine with cached := some addr }, addr)
  else
    match c.tail, c.head with
    | some itAddr, some headAddr =>
      match (heap.getD headAddr { m := [], l := none, n := none, p := none }).p with
      | none => none
      | some newTailAddr =>
        let heap1 := heap.set newTailAddr
          { heap.getD newTailAddr { m := [], l := none, n := none, p := none } with n := none }
        let heap2 := heap1.set itAddr
          { heap1.getD itAddr { m := [], l := none, n := none, p := none } with
              n := some headAddr, p := none, l := some forLine }
        some ({ head := some itAddr, tail := some newTailAddr, len := c.len },
          heap2, { forLine with cached := some itAddr }, itAddr)
    | _, _ => none

/-- Source `File.item`: bounds-check `n`, copy the line struct
(`l := f.index[n]` — a struct COPY, not a pointer), return the cached item
if the copy carries one, otherwise read the raw bytes, call
`f.cache.item(&l)` (whose receiver is a copy — see `Cache.itemGo`), and
unmarshal the buffer into the fresh item's record.  Because both the cache
receiver and the line are copies, the only persistent effects are the heap
allocation, the unmarshal result written into the new item, and `f.err`;
`f.cache` and `f.index[n].cached` are left unchanged.  Outer `none` models
a runtime panic, the inner `Option Nat` is the returned `*item` (`none` =
Go `nil` for an out-of-range line number). -/
def File.item (f : File) (buffer : List Byte) (n : Nat) :
    Option (Option Nat × File × List Byte) :=
  if n < f.index.length then
    let l := f.index.getD n { start := 0, len := 0 }
    match l.cached with
    | some a => some (some a, f, buffer)
    | none =>
      let br := f.bytes buffer n
      let f1 := br.2.1
      match Cache.itemGo f1.cache f1.heap l with
      | none => none
      | some (_creceiver, heap', _lcopy, addr) =>
        let um := f1.unmarshal br.1
        let heap2 := heap'.set addr
          { heap'.getD addr { m := [], l := none, n := none, p := none } with m := um.1 }
        some (some addr, { f1 with heap := heap2, err := um.2 }, br.2.2)
  else
    some (none, f, buffer)

/-- One-line file `"{}\n"` for the C1 cache experiment. -/
def c1file : File := mkFile [123, 125, 10]

/-- First access to line 0 of `c1file`. -/
def c1run1 : Option (Option Nat × File × List Byte) := c1file.item [0, 0, 0] 0

/-- Second access to line 0, continuing from the state the first access
left behind. -/
def c1run2 : Option (Option Nat × File × List Byte) :=
  match c1run1 with
  | some (_, f1, b1) => f1.item b1 0
  | none => none

/-!
Record/view layer.  `FileView.Filter`, `FileView.Search`,
`FileView.SearchTag` and `File.fit` never depend on the cache mechanics:
`File.item` deterministically decodes the same bytes for the same line
number (the broken cache only costs re-decoding), and `File.bytes` returns
a fixed result per line for a fixed source.  The file is therefore
abstracted for these operations as one entry per indexed line carrying the
raw-read outcome (`raw`, `none` = the read fails and `File.bytes` returns
`nil`) and the decoded record (`rec`, which `File.item` produces even when
the read or the JSON decode failed — the item is then just empty).  The
external regexp engine of the `FORegexp` operator is abstracted as the
function field `rxMatch`.
-/

/-- One indexed line as the view layer sees it. -/
structure LineRec where
  raw : Option (List Byte)
  m : Rec

/-- The file as the view layer sees it (see the section comment). -/
structure FileRec where
  lines : List LineRec
  tagNames : List String := ["level", "time", "msg"]
  rxMatch : String → String → Bool := fun _ _ => false

/-- Source `FileView`: the root view has `index == nil` (`none`); a
derived view holds the explicit ordered list of absolute line positions.
The `parent` pointer is only consulted by `Up`/`Top`/`Err` and the
(unreachable) `LinesCount` fallback, and is modelled separately by
`ViewChain`. -/
structure FileView where
  index : Option (List Nat) := none
  name : String := ""
  pos : Int := 0
deriving DecidableEq, Repr

/-- Source `FileView.len`: length of the explicit index, else the file's
line count. -/
def FileView.len (f : FileRec) (v : FileView) : Nat :=
  match v.index with
  | some l => l.length
  | none => f.lines.length

/-- Source `FileView.LinesCount`: same value as `len` here — a derived
view always carries a non-nil index, so the `parent` fallback branch of
the source can never run. -/
def FileView.LinesCount (f : FileRec) (v : FileView) : Nat := FileView.len f v

/-- Source `File.bytes` at the view layer: `nil` for an out-of-range line
number or a failed read, otherwise the line's raw bytes.  The argument is
`Int` because `Search` computes it from cursor arithmetic. -/
def FileRec.bytesAt (f : FileRec) (i : Int) : Option (List Byte) :=
  if 0 ≤ i ∧ i < (f.lines.length : Int) then
    (f.lines.getD i.toNat { raw := none, m := [] }).raw
  else none

/-- Source `File.item` at the view layer: `nil` only for an out-of-range
line number; an in-range item always exists (decode failures just leave
the record empty). -/
def FileRec.itemAt (f : FileRec) (i : Int) : Option Rec :=
  if 0 ≤ i ∧ i < (f.lines.length : Int) then
    some (f.lines.getD i.toNat { raw := none, m := [] }).m
  else none

/-- Source `FileView.getIndex`: on a derived view, the UNCHECKED slice
access `f.index[i]` — out of range is a runtime panic (`none`); on the
root view, `i` itself. -/
def FileView.getIndex (v : FileView) (i : Int) : Option Int :=
  match v.index with
  | some l => if 0 ≤ i ∧ i < (l.length : Int) then some ((l.getD i.toNat 0 : Nat) : Int) else none
  | none => some i

/-- The `checkIdx` closure inside `Search`/`SearchTag`: an index at or
past the end wraps to 0, a negative index wraps to the last line. -/
def checkIdx (len : Nat) (i : Int) : Int :=
  if (len : Int) ≤ i then 0 else if i < 0 then (len : Int) - 1 else i

/-- Source `SearchDirection` constants. -/
inductive SearchDirection where
  | SearchForward
  | SearchBack
deriving DecidableEq, Repr

/-- The cursor step the search loop applies (`from++` / `from--`). -/
def stepIdx : SearchDirection → Int → Int
  | .SearchForward, i => i + 1
  | .SearchBack, i => i - 1

/-- Outcome of `Search`/`SearchTag`, mirroring the Go return pair
`(int, error)`: `res i readErr` is `(i, nil)` when `readErr = false` and
`(-1, errors.New("file read error"))` when `readErr = true`; `panicked`
is a runtime panic inside the loop; `spin` means the loop was still
running when the modelling fuel ran out — every terminating Go execution
answers within `len` iterations, so with fuel `len + 1` a `spin` result
denotes non-termination. -/
inductive SearchRes where
  | res (i : Int) (readErr : Bool)
  | panicked
  | spin
deriving DecidableEq, Repr

/-- Go `strings.Index(hay, needle) != -1`: `needle` occurs as a contiguous
substring of `hay`. -/
def isSubstr {α : Type} [DecidableEq α] (needle : List α) : List α → Bool
  | [] => needle.isPrefixOf []
  | a :: t => needle.isPrefixOf (a :: t) || isSubstr needle t

/-- The body of the `for` loop in source `FileView.Search`, with `cur` the
mutable `from` variable and explicit fuel (see `SearchRes.spin`): read the
raw bytes of `getIndex(from)` (nil → read error), test substring
containment of the mask, step, stop with not-found when the UNWRAPPED next
index equals `start`, wrap, repeat. -/
def searchLoop (f : FileRec) (v : FileView) (mask : List Byte)
    (dir : SearchDirection) (start : Int) : Int → Nat → SearchRes
  | _, 0 => .spin
  | cur, fuel + 1 =>
    match v.getIndex cur with
    | none => .panicked
    | some abs =>
      match f.bytesAt abs with
      | none => .res (-1) true
      | some b =>
        if isSubstr mask b then .res cur false
        else
          let next := stepIdx dir cur
          if start = next then .res (-1) false
          else searchLoop f v mask dir start (checkIdx (FileView.len f v) next) fuel

/-- Source `FileView.Search` (the whole-line search): clamp `from`, then
run the loop; the unused variadic `regexp ...bool` parameter of the source
signature is omitted here because `Search`'s body never mentions it. -/
def FileView.Search (f : FileRec) (v : FileView) (mask : List Byte)
    (frm : Int) (dir : SearchDirection) : SearchRes :=
  let start := checkIdx (FileView.len f v) frm
  searchLoop f v mask dir start start (FileView.len f v + 1)

/-- The per-line match test of source `FileView.SearchTag`:
`t, ok := it.m[tag]; ok && strings.Index(tagToString(t), mask) != -1`.
Strings are compared at scalar-value level; for valid UTF-8 this agrees
with Go's byte-level `strings.Index` containment test because UTF-8 is
self-synchronising. -/
def tagMatch (r : Rec) (tag mask : String) : Bool :=
  match lookupTag r tag with
  | some t => isSubstr mask.toList (tagToString t).toList
  | none => false

/-- The body of the `for` loop in source `FileView.SearchTag`, analogous
to `searchLoop` but testing `tagMatch` on the decoded item (`nil` item →
"file read error"). -/
def searchTagLoop (f : FileRec) (v : FileView) (tag mask : String)
    (dir : SearchDirection) (start : Int) : Int → Nat → SearchRes
  | _, 0 => .spin
  | cur, fuel + 1 =>
    match v.getIndex cur with
    | none => .panicked
    | some abs =>
      match f.itemAt abs with
      | none => .res (-1) true
      | some r =>
        if tagMatch r tag mask then .res cur false
        else
          let next := stepIdx dir cur
          if start = next then .res (-1) false
          else searchTagLoop f v tag mask dir start (checkIdx (FileView.len f v) next) fuel

set_option linter.unusedVariables false in
/-- Source `FileView.SearchTag`: clamp `from`, then run the loop.  `rx`
models the variadic `regexp ...bool` parameter of the source signature,
which the body never reads. -/
def FileView.SearchTag (f : FileRec) (v : FileView) (tag mask : String)
    (frm : Int) (dir : SearchDirection) (rx : Bool) : SearchRes :=
  let start := checkIdx (FileView.len f v) frm
  searchTagLoop f v tag mask dir start start (FileView.len f v + 1)

/-- Source `FilterOperator` constants (string values `"eq"`, `"ne"`,
`"ge"`, `"le"`, `"regexp"`). -/
inductive FilterOperator where
  | FOEqual
  | FONotEqual
  | FOGreaterOrEqual
  | FOLessOrEqual
  | FORegexp
deriving DecidableEq, Repr

/-- The string value of a `FilterOperator` constant. -/
def FilterOperator.str : FilterOperator → String
  | .FOEqual => "eq"
  | .FONotEqual => "ne"
  | .FOGreaterOrEqual => "ge"
  | .FOLessOrEqual => "le"
  | .FORegexp => "regexp"

/-- Source `Filter` struct. -/
structure Filter where
  Tag : String
  Mask : String
  Operator : FilterOperator
deriving DecidableEq, Repr

/-- Source `Filter.String` (`fmt.Sprintf("%s %s %s", ...)`). -/
def Filter.String (q : Filter) : String :=
  q.Tag ++ " " ++ q.Operator.str ++ " " ++ q.Mask

/-- Source `levels` table. -/
def levels : List String := ["trace", "debug", "info", "warn", "error", "fault"]

/-- The linear scan both `File.decodeLevel` and `File.Level` perform over
`levels`, returning the rank or `-1`. -/
def levelFind : List String → Nat → String → Int
  | [], _, _ => -1
  | n :: rest, i, lev => if n = lev then (i : Int) else levelFind rest (i + 1) lev

/-- Go `strings.ToLower`, which agrees with `Char.toLower` on the ASCII
range (all the level table contains); mapped over the string's character
list. -/
def toLowerGo (s : String) : String := { data := s.data.map Char.toLower }

/-- Source `File.decodeLevel`: lower-case, then rank lookup
(unrecognised → `-1`). -/
def decodeLevel (lev : String) : Int := levelFind levels 0 (toLowerGo lev)

/-- Go string `>=`: byte-lexicographic, which on valid UTF-8 agrees with
scalar-value lexicographic order. -/
def goStrGe (a b : String) : Bool := !(decide (a < b))

/-- Go string `<=`. -/
def goStrLe (a b : String) : Bool := !(decide (b < a))

/-- Source `File.fit`: empty tag or missing field never matches; if the
tag is the configured level field name (`f.TagName(TagLevel)` =
`tagNames[0]`) both sides go through `decodeLevel` before the comparison;
otherwise the string encodings are compared; the regexp operator delegates
to the external engine (`rxMatch`; its compile-error recording on `f.err`
is not needed by any claim and is omitted). -/
def FileRec.fit (f : FileRec) (it : Rec) (q : Filter) : Bool :=
  if q.Tag = "" then false
  else
    match lookupTag it q.Tag with
    | none => false
    | some t =>
      let val := tagToString t
      let islevel := q.Tag = f.tagNames.getD 0 ""
      let lev := if islevel then decodeLevel val else -1
      let reqLev := if islevel then decodeLevel q.Mask else -1
      match q.Operator with
      | .FOEqual => if islevel then decide (lev = reqLev) else decide (val = q.Mask)
      | .FONotEqual => if islevel then !(decide (lev = reqLev)) else !(decide (val = q.Mask))
      | .FOGreaterOrEqual => if islevel then decide (reqLev ≤ lev) else goStrGe val q.Mask
      | .FOLessOrEqual => if islevel then decide (lev ≤ reqLev) else goStrLe val q.Mask
      | .FORegexp => f.rxMatch q.Mask val

/-- Source `FileView.item` (note: unlike `getIndex`, this DOES
bounds-check the view index before the slice access). -/
def FileView.item (f : FileRec) (v : FileView) (i : Nat) : Option Rec :=
  match v.index with
  | some l => if i < l.length then f.itemAt ((l.getD i 0 : Nat) : Int) else none
  | none => f.itemAt (i : Int)

/-- Source `FileView.getIndex` on the `Filter` path, where the source only
evaluates it at `i <` the view length (so the unchecked access cannot
panic there; `getD` is then exact). -/
def FileView.getIndexD (v : FileView) (i : Nat) : Nat :=
  match v.index with
  | some l => l.getD i 0
  | none => i

/-- Source `FileView.Filter`: scan every visible line, keep the absolute
positions of those whose decoded item exists and fits the filter, and
wrap them in a derived view. -/
def FileView.Filter (f : FileRec) (v : FileView) (q : Filter) : FileView :=
  { index := some ((List.range (FileView.LinesCount f v)).filterMap (fun i =>
      match FileView.item f v i with
      | some r => if f.fit r q then some (FileView.getIndexD v i) else none
      | none => none)),
    name := q.String,
    pos := 0 }

/-- The visible absolute positions of a view, in order: the explicit index
of a derived view, or all file lines for the root view. -/
def FileView.visible (f : FileRec) (v : FileView) : List Nat :=
  match v.index with
  | some l => l
  | none => List.range f.lines.length

/-- Well-formedness tying a view to its file: every absolute position a
derived view holds is a real line number.  Views the program builds
(`File.View` and `FileView.Filter` results) satisfy this by
construction. -/
def WFView (f : FileRec) (v : FileView) : Prop :=
  match v.index with
  | some l => ∀ p ∈ l, p < f.lines.length
  | none => True

/-- The `parent` linkage of `FileView`s, as a chain: the root view (no
parent, `index == nil`) or a derived view with its explicit index, its
cursor, and its parent.  `Up`/`Top`/`rewindTo` only touch `index`, `pos`
and `parent`, so the chain carries exactly those. -/
inductive ViewChain where
  | root (pos : Int)
  | node (index : List Nat) (pos : Int) (parent : ViewChain)
deriving DecidableEq, Repr

/-- The `for i, pos := range f.index { if pos >= idx { f.pos = i; break } }`
loop of source `rewindTo`: index of the first entry `≥ idx`, if any. -/
def firstGeIdx (l : List Nat) (idx : Int) : Option Nat :=
  match l with
  | [] => none
  | a :: t => if idx ≤ (a : Int) then some 0 else (firstGeIdx t idx).map (· + 1)

/-- Source `FileView.rewindTo`: on a derived view, set `pos` to the first
index whose entry is `≥ idx` (leaving `pos` unchanged when there is
none); on the root view, assign `pos := idx` directly. -/
def ViewChain.rewindTo : ViewChain → Int → ViewChain
  | .root _, idx => .root idx
  | .node l p par, idx =>
    match firstGeIdx l idx with
    | some i => .node l (i : Int) par
    | none => .node l p par

/-- Source `FileView.Up`: a root view returns itself; a derived view
calls `f.parent.rewindTo(f.pos)` — passing its own raw cursor value — and
returns the parent. -/
def ViewChain.Up : ViewChain → ViewChain
  | .root p => .root p
  | .node _ p par => par.rewindTo p

/-- The `for p.parent != nil { p = p.parent }` walk of source `Top`. -/
def ViewChain.rootOf : ViewChain → ViewChain
  | .root p => .root p
  | .node _ _ par => rootOf par

/-- Source `FileView.Top`: a root view returns itself; a derived view
walks to the chain's root, calls `rewindTo(f.pos)` on it — again with the
raw cursor value — and returns it. -/
def ViewChain.Top : ViewChain → ViewChain
  | .root p => .root p
  | .node _ p par => (rootOf par).rewindTo p

/-- The cursor of a chain element. -/
def ViewChain.cursor : ViewChain → Int
  | .root p => p
  | .node _ p _ => p

/-- Modelled from the claim's words, for stating its failure: the
ABSOLUTE line a view's cursor denotes — the cursor itself for the root
view, the indexed entry for a derived view. -/
def ViewChain.absEquiv : ViewChain → Option Int
  | .root p => some p
  | .node l p _ =>
    if 0 ≤ p ∧ p < (l.length : Int) then some ((l.getD p.toNat 0 : Nat) : Int) else none

/-- A two-line file for the C4 divergence experiment: raw lines `"A"` and
`"B"`. -/
def c4file : FileRec :=
  { lines := [{ raw := some [65], m := [] }, { raw := some [66], m := [] }] }

/-- The root view over `c4file`. -/
def c4view : FileView := {}

/-- A one-line file for the C10 experiment. -/
def c10file : FileRec := { lines := [{ raw := some [65], m := [] }] }

/-- A derived view whose filter matched no lines: explicit EMPTY index
(Go `[]int{}`, non-nil). -/
def c10view : FileView := { index := some [] }

/-- Two-line file shared by the C5/C6/C7 witnesses: line 0 decodes to
`{"level": "info"}`, line 1 to `{"msg": "abc"}`. -/
def wfile : FileRec :=
  { lines := [{ raw := some [65], m := [("level", GoVal.vstr "info")] },
              { raw := some [66], m := [("msg", GoVal.vstr "abc")] }] }

/-- Derived view over `wfile` showing only absolute line 0, for the C7
witness. -/
def c7view : FileView := { index := some [0] }

theorem mkSrc_cons (l : List Byte) (ls : List (List Byte)) :
    mkSrc (l :: ls) = (l ++ [newlineByte]) ++ mkSrc ls := by
  simp [mkSrc]

theorem scanIndex_skip (l : List Byte) (hl : newlineByte ∉ l) :
    ∀ (suffix : List Byte) (pos k : Nat) (acc : List Line),
      scanIndex (l ++ suffix) pos k acc = scanIndex suffix pos (k + l.length) acc := by
  induction l with
  | nil => intro suffix pos k acc; simp [scanIndex]
  | cons b t ih =>
    intro suffix pos k acc
    have hb : b ≠ newlineByte := fun h => hl (by simp [h])
    have ht : newlineByte ∉ t := fun h => hl (List.mem_cons_of_mem _ h)
    have step : scanIndex ((b :: t) ++ suffix) pos k acc
        = scanIndex (t ++ suffix) pos (k + 1) acc := by
      simp only [List.cons_append, scanIndex, if_neg hb]
      rfl
    rw [step, ih ht]
    have harg : k + 1 + t.length = k + (b :: t).length := by
      simp only [List.length_cons]; omega
    rw [harg]

theorem scanIndex_mkSrc (lines : List (List Byte))
    (h : ∀ l ∈ lines, newlineByte ∉ l) :
    ∀ (pos : Nat) (acc : List Line),
      scanIndex (mkSrc lines) pos 0 acc = acc ++ linesIndex lines pos := by
  induction lines with
  | nil => intro pos acc; simp [mkSrc, scanIndex, linesIndex]
  | cons l ls ih =>
    intro pos acc
    have hl : newlineByte ∉ l := h l (by simp)
    have hls : ∀ x ∈ ls, newlineByte ∉ x := fun x hx => h x (List.mem_cons_of_mem _ hx)
    have hsplit : mkSrc (l :: ls) = l ++ ([newlineByte] ++ mkSrc ls) := by
      rw [mkSrc_cons, List.append_assoc]
    rw [hsplit, scanIndex_skip l hl]
    have step : scanIndex ([newlineByte] ++ mkSrc ls) pos (0 + l.length) acc
        = scanIndex (mkSrc ls) (pos + l.length + 1) 0
            (acc ++ [{ start := pos, len := l.length }]) := by
      simp [scanIndex]
    rw [step, ih hls]
    simp [linesIndex, List.append_assoc]

theorem linesIndex_length (lines : List (List Byte)) (pos : Nat) :
    (linesIndex lines pos).length = lines.length := by
  induction lines generalizing pos with
  | nil => simp [linesIndex]
  | cons l ls ih => simp [linesIndex, ih]

theorem linesIndex_getD (lines : List (List Byte)) :
    ∀ (pos i : Nat), i < lines.length →
      (linesIndex lines pos).getD i {start := 0, len := 0} =
        { start := pos + lineOffset lines i, len := (lines.getD i []).length } := by
  induction lines with
  | nil => intro pos i h; simp at h
  | cons l ls ih =>
    intro pos i h
    cases i with
    | zero => simp [linesIndex, lineOffset]
    | succ j =>
      have hj : j < ls.length := by simpa using h
      simp only [linesIndex, List.getD_cons_succ, lineOffset]
      rw [ih (pos + l.length + 1) j hj]
      congr 1
      omega

theorem mkSrc_extract (lines : List (List Byte)) :
    ∀ i, i < lines.length →
      ((mkSrc lines).drop (lineOffset lines i)).take (lines.getD i []).length
          = lines.getD i [] ∧
        lineOffset lines i + (lines.getD i []).length ≤ (mkSrc lines).length := by
  induction lines with
  | nil => intro i h; simp at h
  | cons l ls ih =>
    intro i h
    cases i with
    | zero =>
      have hsplit : mkSrc (l :: ls) = l ++ ([newlineByte] ++ mkSrc ls) := by
        rw [mkSrc_cons, List.append_assoc]
      have hlen : (mkSrc (l :: ls)).length = l.length + (1 + (mkSrc ls).length) := by
        rw [hsplit]
        rw [List.length_append, List.length_append]
        simp only [List.length_cons, List.length_nil]
      constructor
      · rw [hsplit]
        show ((l ++ ([newlineByte] ++ mkSrc ls)).drop 0).take l.length = l
        rw [List.drop_zero]
        rw [List.take_append_of_le_length (Nat.le_refl _)]
        exact List.take_length l
      · show lineOffset (l :: ls) 0 + ((l :: ls).getD 0 []).length ≤ (mkSrc (l :: ls)).length
        simp only [lineOffset, List.getD_cons_zero]
        omega
    | succ j =>
      have hj : j < ls.length := by simpa using h
      have hsrc : mkSrc (l :: ls) = (l ++ [newlineByte]) ++ mkSrc ls := mkSrc_cons l ls
      have hoff : lineOffset (l :: ls) (j + 1) = (l ++ [newlineByte]).length + lineOffset ls j := by
        simp only [lineOffset, List.length_append, List.length_cons, List.length_nil]
      have hdrop : (mkSrc (l :: ls)).drop (lineOffset (l :: ls) (j + 1)) =
          (mkSrc ls).drop (lineOffset ls j) := by
        rw [hsrc, hoff, List.drop_append]
      have hlen : (mkSrc (l :: ls)).length = (l.length + 1) + (mkSrc ls).length := by
        rw [hsrc]
        rw [List.length_append, List.length_append]
        simp only [List.length_cons, List.length_nil]
      obtain ⟨ih1, ih2⟩ := ih j hj
      refine ⟨?_, ?_⟩
      · rw [hdrop]
        simpa using ih1
      · have hoff' : lineOffset (l :: ls) (j + 1) = l.length + 1 + lineOffset ls j := by
          rw [hoff]
          simp only [List.length_append, List.length_cons, List.length_nil]
        simp only [List.getD_cons_succ]
        omega

theorem scanIndex_mkSrc_append (lines : List (List Byte)) (tail : List Byte)
    (h : ∀ l ∈ lines, newlineByte ∉ l) (htail : newlineByte ∉ tail) :
    ∀ (pos : Nat) (acc : List Line),
      scanIndex (mkSrc lines ++ tail) pos 0 acc = acc ++ linesIndex lines pos := by
  induction lines with
  | nil =>
    intro pos acc
    have h1 : mkSrc [] ++ tail = tail ++ [] := by simp [mkSrc]
    rw [h1, scanIndex_skip tail htail [] pos 0 acc]
    simp [scanIndex, linesIndex]
  | cons l ls ih =>
    intro pos acc
    have hl : newlineByte ∉ l := h l (by simp)
    have hls : ∀ x ∈ ls, newlineByte ∉ x := fun x hx => h x (List.mem_cons_of_mem _ hx)
    have hsplit : mkSrc (l :: ls) ++ tail = l ++ ([newlineByte] ++ (mkSrc ls ++ tail)) := by
      rw [mkSrc_cons, List.append_assoc, List.append_assoc]
    rw [hsplit, scanIndex_skip l hl]
    have step : scanIndex ([newlineByte] ++ (mkSrc ls ++ tail)) pos (0 + l.length) acc
        = scanIndex (mkSrc ls ++ tail) (pos + l.length + 1) 0
            (acc ++ [{ start := pos, len := l.length }]) := by
      simp [scanIndex]
    rw [step, ih hls]
    simp [linesIndex, List.append_assoc]

theorem mkSrc_append_extract (lines : List (List Byte)) (tail : List Byte) :
    ∀ i, i < lines.length →
      ((mkSrc lines ++ tail).drop (lineOffset lines i)).take (lines.getD i []).length
          = lines.getD i [] ∧
        lineOffset lines i + (lines.getD i []).length ≤ (mkSrc lines ++ tail).length := by
  intro i hi
  obtain ⟨hext, hle⟩ := mkSrc_extract lines i hi
  have hoff : lineOffset lines i ≤ (mkSrc lines).length := by omega
  constructor
  · rw [List.drop_append_of_le_length hoff]
    rw [List.take_append_of_le_length (by rw [List.length_drop]; omega)]
    exact hext
  · rw [List.length_append]
    omega

/-- Claim C3 counterexample: the source `"A\nB"` holds, in the claim's own
terms, `N = 2` newline-delimited lines — `"A"` before the newline and the
final line `"B"` lying between the last newline and end of source, with
the claim demanding `lineCount = 2` and `rawBytes(1) = "B"`.  The indexing
scan only records a descriptor when it sees a `'\n'`, so the unterminated
final line is dropped: the line count is 1, not 2, and the raw-bytes
accessor has no line 1 to return. -/
theorem c3_unterminated_line_dropped :
    (mkFile [65, 10, 66]).LinesCount = 1 ∧
      (mkFile [65, 10, 66]).index = [{ start := 0, len := 1 }] ∧
      ((mkFile [65, 10, 66]).bytes (List.replicate 8 0) 1).1 = none := by
  refine ⟨rfl, rfl, rfl⟩

/-- Claim C3 (amended): the scan records one line per NEWLINE SEEN: for a
byte source of `N` newline-terminated lines followed by an optional
newline-free trailing fragment, the line count after the `NewFile`
indexing scan is `N` — an unterminated final fragment is not indexed —
and for every `i < N` the raw-bytes accessor `File.bytes` returns exactly
the bytes between the `i`-th and `(i+1)`-th newline, with no trailing
newline, whatever the scratch buffer currently holds. -/
theorem c3_indexing_amended (lines : List (List Byte)) (tail : List Byte)
    (h : ∀ l ∈ lines, newlineByte ∉ l) (htail : newlineByte ∉ tail) :
    (mkFile (mkSrc lines ++ tail)).LinesCount = lines.length ∧
      ∀ i, i < lines.length → ∀ buffer : List Byte,
        ((mkFile (mkSrc lines ++ tail)).bytes buffer i).1 = some (lines.getD i []) := by
  have hidx : (mkFile (mkSrc lines ++ tail)).index = linesIndex lines 0 := by
    show scanIndex (mkSrc lines ++ tail) 0 0 [] = linesIndex lines 0
    rw [scanIndex_mkSrc_append lines tail h htail 0 []]
    exact List.nil_append _
  have hN : (linesIndex lines 0).length = lines.length := linesIndex_length lines 0
  constructor
  · show (mkFile (mkSrc lines ++ tail)).index.length = lines.length
    rw [hidx, hN]
  · intro i hi buffer
    obtain ⟨hext, hle⟩ := mkSrc_append_extract lines tail i hi
    have hget : (linesIndex lines 0).getD i {start := 0, len := 0} =
        { start := 0 + lineOffset lines i, len := (lines.getD i []).length } :=
      linesIndex_getD lines 0 i hi
    have hibound : i < (linesIndex lines 0).length := by
      rw [hN]; exact hi
    have hsrc : (mkFile (mkSrc lines ++ tail)).src = mkSrc lines ++ tail := rfl
    simp only [File.bytes, if_pos hibound, hidx, hget, hsrc, Nat.zero_add]
    rw [hext]
    have hcond : ¬((lines.getD i []).length = 0 ∧ 0 < (lines.getD i []).length) := by
      omega
    rw [if_neg hcond]
    show some ((lines.getD i [] ++ _).take (lines.getD i []).length) = some (lines.getD i [])
    rw [List.take_append_of_le_length (Nat.le_refl _), List.take_length]

/-- Witness for the amended C3 at the concrete source `"A\nBC\nD"` (two
terminated lines plus an unterminated fragment `"D"`). -/
theorem c3_indexing_amended_witness :
    (mkFile (mkSrc [[65], [66, 67]] ++ [68])).LinesCount = 2 ∧
      ((mkFile (mkSrc [[65], [66, 67]] ++ [68])).bytes [0] 1).1 = some [66, 67] := by
  have h := c3_indexing_amended [[65], [66, 67]] [68] (by decide) (by decide)
  exact ⟨h.1, h.2 1 (by decide) [0]⟩

/-- Claim C8 counterexample: the read for line 0 of `c8file` obtains only 3
of the expected 5 bytes, yet `File.bytes` reports no error — it returns a
5-byte slice (3 fresh bytes, then stale zero-initialised buffer content),
because the source discards the byte count that `Read` returns and checks
only the error value.  The claim says this short read must fail with a
read error. -/
theorem c8_short_read_no_error :
    ((c8file.bytes [0, 0] 0).1 = some [65, 66, 67, 0, 0]) ∧
      c8file.src.length < (c8file.index.getD 0 { start := 0, len := 0 }).len := by
  exact ⟨rfl, by decide⟩

/-- Claim C8 (amended): `File.bytes` returns `nil` exactly when the line
number is out of range, or the underlying read reports a non-nil error —
which, for a seekable byte source, happens exactly when zero bytes are
available at the line's start offset while the line length is positive.
A short but non-empty read reports no error, and every non-`nil` result is
a slice of exactly the line descriptor's length (the bytes actually read,
padded with stale scratch-buffer content when the read was short). -/
theorem c8_bytes_error_amended (f : File) (buffer : List Byte) (n : Nat) :
    ((f.bytes buffer n).1 = none ↔
      f.index.length ≤ n ∨
        (0 < (f.index.getD n { start := 0, len := 0 }).len ∧
          f.src.length ≤ (f.index.getD n { start := 0, len := 0 }).start)) ∧
    ∀ r, (f.bytes buffer n).1 = some r →
      r.length = (f.index.getD n { start := 0, len := 0 }).len := by
  by_cases hn : n < f.index.length
  · set l := f.index.getD n { start := 0, len := 0 } with hl
    have hrlen : ((f.src.drop l.start).take l.len).length = min l.len (f.src.length - l.start) := by
      rw [List.length_take, List.length_drop]
    by_cases herr : ((f.src.drop l.start).take l.len).length = 0 ∧ 0 < l.len
    · have hv : (f.bytes buffer n).1 = none := by
        simp only [File.bytes, if_pos hn, ← hl]
        rw [if_pos herr]
      constructor
      · rw [hv]
        constructor
        · intro _
          right
          refine ⟨herr.2, ?_⟩
          have h0 := herr.1
          rw [hrlen] at h0
          omega
        · intro _; rfl
      · intro r hr
        rw [hv] at hr
        cases hr
    · have hv : (f.bytes buffer n).1 = some ((((f.src.drop l.start).take l.len) ++
          ((if buffer.length < l.len then List.replicate l.len 0 else buffer).drop
            ((f.src.drop l.start).take l.len).length)).take l.len) := by
        simp only [File.bytes, if_pos hn, ← hl]
        rw [if_neg herr]
      constructor
      · constructor
        · intro hc
          rw [hv] at hc
          cases hc
        · intro hor
          exfalso
          rcases hor with hoor | ⟨hpos, hsrc0⟩
          · omega
          · exact herr ⟨by rw [hrlen]; omega, hpos⟩
      · intro r hr
        rw [hv] at hr
        injection hr with hr'
        have hbuf0 : l.len ≤ (if buffer.length < l.len then List.replicate l.len 0 else buffer).length := by
          by_cases hb : buffer.length < l.len
          · rw [if_pos hb, List.length_replicate]
          · rw [if_neg hb]; omega
        rw [← hr', List.length_take, List.length_append, List.length_drop]
        omega
  · have hv : (f.bytes buffer n).1 = none := by
      simp only [File.bytes, if_neg hn]
    constructor
    · rw [hv]
      constructor
      · intro _; left; omega
      · intro _; rfl
    · intro r hr
      rw [hv] at hr
      cases hr

/-- Witness for the amended C8 at concrete inputs: an in-range full read
succeeds with a slice of the descriptor's length, and a read at an offset
past end-of-source fails. -/
theorem c8_bytes_error_amended_witness :
    ¬((mkFile (mkSrc [[65, 66]])).bytes [0] 0).1 = none ∧
      (∀ r, ((mkFile (mkSrc [[65, 66]])).bytes [0] 0).1 = some r → r.length = 2) ∧
      ({ src := [], index := [{ start := 7, len := 4 }] : File }.bytes [0] 0).1 = none := by
  refine ⟨?_, ?_, ?_⟩
  · have h := (c8_bytes_error_amended (mkFile (mkSrc [[65, 66]])) [0] 0).1
    intro hc
    have := h.mp hc
    revert this
    decide
  · intro r hr
    have h := (c8_bytes_error_amended (mkFile (mkSrc [[65, 66]])) [0] 0).2 r hr
    simpa using h
  · have h := (c8_bytes_error_amended { src := [], index := [{ start := 7, len := 4 }] } [0] 0).1
    apply h.mpr
    right
    decide

/-- Claim C9: the claim says the known-tags reordering pass after the
priming decode performs no out-of-range access even when the observed
field names do not include all three role names.  The code violates this:
a file whose first record has only the field `level` yields
`knownTags = ["level"]`, and `sortKnownTags` then writes `tags[1]` into a
slice of length 1 — an index-out-of-range panic; likewise a single
non-role field `host` makes it write `tags[3]`.  The final conjunct shows
the pass succeeding when all three roles are present, confirming the panic
is specific to the missing-role case. -/
theorem c9_sortKnownTags_panics :
    fillKnownTagsGo [] [("level", GoVal.vstr "info")] = ["level"] ∧
      sortKnownTagsGo ["level", "time", "msg"] ["level"] = none ∧
      sortKnownTagsGo ["level", "time", "msg"] ["host"] = none ∧
      sortKnownTagsGo ["level", "time", "msg"] ["time", "level", "msg", "host"] =
        some ["time", "level", "msg", "host"] := by
  decide

/-- Claim C1: the claim says a cached line's descriptor holds a
back-reference to its cache entry so a repeated access returns the cached
record without re-decoding, with LRU bookkeeping up to `cacheSize`
entries.  The code violates this: accessing line 0 twice allocates TWO
distinct items (heap addresses 0 and then 1 — the second access re-decodes
instead of returning the first item), the line index still carries no
back-reference after the first access, and the persistent cache length is
still 0 — because `cache.item`'s value receiver and the `l := f.index[n]`
struct copy discard every cache/back-reference update. -/
theorem c1_cache_updates_lost :
    c1run1.map (fun r => r.1) = some (some 0) ∧
      c1run2.map (fun r => r.1) = some (some 1) ∧
      c1run1.map (fun r => r.2.1.index) = some c1file.index ∧
      c1run1.map (fun r => r.2.1.cache.len) = some 0 ∧
      (c1file.index.getD 0 { start := 0, len := 0 }).cached = none := by
  refine ⟨rfl, rfl, rfl, rfl, rfl⟩

/-- Claim C2 counterexample: derived view with index `[2]` (only absolute
line 2 visible) and cursor 0, i.e. the cursor sits on absolute line 2.
The claim says `Up()`/`Top()` return the root repositioned to that
absolute line (2); the code passes the raw view-relative cursor 0 to
`rewindTo`, so the root comes back with cursor 0. -/
theorem c2_up_counterexample :
    ViewChain.Up (.node [2] 0 (.root 0)) = .root 0 ∧
      ViewChain.Top (.node [2] 0 (.root 0)) = .root 0 ∧
      ViewChain.absEquiv (.node [2] 0 (.root 0)) = some 2 ∧
      (ViewChain.Up (.node [2] 0 (.root 0))).cursor ≠ 2 := by
  decide

theorem firstGeIdx_eq_none (l : List Nat) (t : Int) (h : ∀ x ∈ l, (x : Int) < t) :
    firstGeIdx l t = none := by
  induction l with
  | nil => rfl
  | cons a l' ih =>
    have ha : (a : Int) < t := h a (by simp)
    have h' : ∀ x ∈ l', (x : Int) < t := fun x hx => h x (List.mem_cons_of_mem _ hx)
    simp only [firstGeIdx]
    rw [if_neg (by omega), ih h']
    rfl

theorem firstGeIdx_eq_some (l : List Nat) (t : Int) :
    ∀ i : Nat, i < l.length → t ≤ (l.getD i 0 : Int) →
      (∀ j : Nat, j < i → (l.getD j 0 : Int) < t) → firstGeIdx l t = some i := by
  induction l with
  | nil => intro i hi; simp at hi
  | cons a l' ih =>
    intro i hi hge hlt
    cases i with
    | zero =>
      simp only [List.getD_cons_zero] at hge
      simp only [firstGeIdx, if_pos hge]
    | succ i' =>
      have ha : (a : Int) < t := by
        have := hlt 0 (Nat.succ_pos i')
        simpa using this
      simp only [firstGeIdx]
      rw [if_neg (by omega)]
      have hr : firstGeIdx l' t = some i' := by
        apply ih i' (by simpa using hi)
        · simpa using hge
        · intro j hj
          have := hlt (j + 1) (by omega)
          simpa using this
      rw [hr]
      rfl

/-- Claim C2 (amended): `Up()` returns the immediate parent and `Top()`
the chain's root, but both reposition using the view's RAW cursor value
`p` (its view-relative position), not the absolute line it denotes: a
root parent (and `Top`'s root) gets cursor `p` directly; a derived parent
gets cursor = the index of the first entry of its own sequence that is
`≥ p` — its cursor is unchanged when no entry qualifies. -/
theorem c2_up_top_amended (l : List Nat) (p : Int) :
    (∀ q : Int, ViewChain.Up (.node l p (.root q)) = .root p) ∧
    (∀ par : ViewChain, ViewChain.Top (.node l p par) = .root p) ∧
    (∀ (l' : List Nat) (p' : Int) (par : ViewChain),
      ((∀ x ∈ l', (x : Int) < p) →
        ViewChain.Up (.node l p (.node l' p' par)) = .node l' p' par) ∧
      (∀ i : Nat, i < l'.length → p ≤ (l'.getD i 0 : Int) →
        (∀ j : Nat, j < i → (l'.getD j 0 : Int) < p) →
        ViewChain.Up (.node l p (.node l' p' par)) = .node l' (i : Int) par)) := by
  refine ⟨fun q => rfl, ?_, ?_⟩
  · intro par
    show (ViewChain.rootOf par).rewindTo p = .root p
    induction par with
    | root q => rfl
    | node l'' p'' par' ih => exact ih
  · intro l' p' par
    constructor
    · intro hall
      show (ViewChain.node l' p' par).rewindTo p = .node l' p' par
      simp only [ViewChain.rewindTo, firstGeIdx_eq_none l' p hall]
    · intro i hi hge hlt
      show (ViewChain.node l' p' par).rewindTo p = .node l' (i : Int) par
      simp only [ViewChain.rewindTo, firstGeIdx_eq_some l' p i hi hge hlt]

/-- Witness for the amended C2 at concrete chains. -/
theorem c2_up_top_amended_witness :
    ViewChain.Up (.node [5] 1 (.root 9)) = .root 1 ∧
      ViewChain.Top (.node [5] 1 (.node [0, 2] 7 (.root 3))) = .root 1 ∧
      ViewChain.Up (.node [5] 1 (.node [0, 2] 7 (.root 3))) = .node [0, 2] 1 (.root 3) ∧
      ViewChain.Up (.node [5] 9 (.node [0, 2] 7 (.root 3))) = .node [0, 2] 7 (.root 3) := by
  refine ⟨(c2_up_top_amended [5] 1).1 9, (c2_up_top_amended [5] 1).2.1 _, ?_, ?_⟩
  · exact ((c2_up_top_amended [5] 1).2.2 [0, 2] 7 (.root 3)).2 1 (by decide) (by decide)
      (by decide)
  · exact ((c2_up_top_amended [5] 9).2.2 [0, 2] 7 (.root 3)).1 (by decide)

/-- Claim C10: the claim says `Search`/`SearchTag` on a derived view with
an EMPTY index return not-found or an error without out-of-range access.
The code violates this: `checkIdx` clamps `from` to 0 (or −1), and
`getIndex` then evaluates `f.index[0]` (resp. `f.index[-1]`) on the empty
slice — an index-out-of-range panic — for EVERY mask, start index,
direction and regexp flag. -/
theorem c10_empty_view_search_panics (mask : List Byte) (tag mask2 : String)
    (frm : Int) (dir : SearchDirection) (rx : Bool) :
    FileView.Search c10file c10view mask frm dir = .panicked ∧
      FileView.SearchTag c10file c10view tag mask2 frm dir rx = .panicked := by
  have hgi : ∀ i : Int, FileView.getIndex c10view i = none := by
    intro i
    show (if 0 ≤ i ∧ i < (([] : List Nat).length : Int) then
        some ((([] : List Nat).getD i.toNat 0 : Nat) : Int) else none) = none
    rw [if_neg]
    rintro ⟨h1, h2⟩
    simp only [List.length_nil, Nat.cast_zero] at h2
    omega
  constructor
  · show searchLoop c10file c10view mask dir (checkIdx (FileView.len c10file c10view) frm)
      (checkIdx (FileView.len c10file c10view) frm) (FileView.len c10file c10view + 1) = .panicked
    simp only [searchLoop, hgi]
  · show searchTagLoop c10file c10view tag mask2 dir
      (checkIdx (FileView.len c10file c10view) frm)
      (checkIdx (FileView.len c10file c10view) frm) (FileView.len c10file c10view + 1) = .panicked
    simp only [searchTagLoop, hgi]

/-- Claim C4: the claim says a search with no matching visible line
returns not-found after visiting every visible line exactly once.  The
code violates this whenever the (clamped) start index is 0 for a forward
search (resp. the last line backwards): the `start == from` stop test
runs on the UNWRAPPED incremented index, which is never 0 again, so the
loop never terminates.  Here: two-line file, mask `"z"` matching neither
line, forward search from line 0 — the loop is still running after any
amount of fuel, i.e. it never returns at all (the first two conjuncts
show no line matches). -/
theorem c4_search_never_terminates :
    isSubstr [122] [65] = false ∧ isSubstr [122] [66] = false ∧
      (∀ fuel : Nat,
        searchLoop c4file c4view [122] .SearchForward 0 0 fuel = .spin ∧
          searchLoop c4file c4view [122] .SearchForward 0 1 fuel = .spin) ∧
      FileView.Search c4file c4view [122] 0 .SearchForward = .spin := by
  have hspin : ∀ fuel : Nat,
      searchLoop c4file c4view [122] .SearchForward 0 0 fuel = .spin ∧
        searchLoop c4file c4view [122] .SearchForward 0 1 fuel = .spin := by
    intro fuel
    induction fuel with
    | zero => exact ⟨rfl, rfl⟩
    | succ n ih =>
      have e0 : searchLoop c4file c4view [122] .SearchForward 0 0 (n + 1) =
          searchLoop c4file c4view [122] .SearchForward 0 1 n := rfl
      have e1 : searchLoop c4file c4view [122] .SearchForward 0 1 (n + 1) =
          searchLoop c4file c4view [122] .SearchForward 0 0 n := rfl
      exact ⟨e0.trans ih.2, e1.trans ih.1⟩
  exact ⟨rfl, rfl, hspin, (hspin 3).1⟩

theorem isPrefixOf_iff {α : Type} [DecidableEq α] (n h : List α) :
    n.isPrefixOf h = true ↔ ∃ t, h = n ++ t := by
  induction n generalizing h with
  | nil => simp [List.isPrefixOf]
  | cons a n' ih =>
    cases h with
    | nil =>
      simp [List.isPrefixOf]
    | cons b h' =>
      simp only [List.isPrefixOf, Bool.and_eq_true, beq_iff_eq, ih]
      constructor
      · rintro ⟨hab, t, ht⟩
        exact ⟨t, by rw [hab, ht]; rfl⟩
      · rintro ⟨t, ht⟩
        injection ht with h1 h2
        exact ⟨h1.symm, t, h2⟩

theorem isSubstr_iff {α : Type} [DecidableEq α] (n h : List α) :
    isSubstr n h = true ↔ ∃ s t, h = s ++ n ++ t := by
  induction h with
  | nil =>
    simp only [isSubstr, isPrefixOf_iff]
    constructor
    · rintro ⟨t, ht⟩
      exact ⟨[], t, by simpa using ht⟩
    · rintro ⟨s, t, hst⟩
      have hs : s = [] := by
        cases s with
        | nil => rfl
        | cons x s' => simp at hst
      subst hs
      exact ⟨t, by simpa using hst⟩
  | cons a h' ih =>
    simp only [isSubstr, Bool.or_eq_true, isPrefixOf_iff, ih]
    constructor
    · rintro (⟨t, ht⟩ | ⟨s, t, hst⟩)
      · exact ⟨[], t, by simpa using ht⟩
      · exact ⟨a :: s, t, by rw [hst]; rfl⟩
    · rintro ⟨s, t, hst⟩
      cases s with
      | nil =>
        left
        exact ⟨t, by simpa using hst⟩
      | cons x s' =>
        right
        injection hst with h1 h2
        exact ⟨s', t, h2⟩

theorem searchTagLoop_found (f : FileRec) (v : FileView) (tag mask : String)
    (dir : SearchDirection) (start : Int) :
    ∀ (fuel : Nat) (cur i : Int),
      searchTagLoop f v tag mask dir start cur fuel = .res i false → 0 ≤ i →
        ∃ abs r, FileView.getIndex v i = some abs ∧ f.itemAt abs = some r ∧
          tagMatch r tag mask = true := by
  intro fuel
  induction fuel with
  | zero =>
    intro cur i h hi
    simp [searchTagLoop] at h
  | succ n ih =>
    intro cur i h hi
    rw [show searchTagLoop f v tag mask dir start cur (n + 1)
        = (match FileView.getIndex v cur with
           | none => SearchRes.panicked
           | some abs =>
             match f.itemAt abs with
             | none => SearchRes.res (-1) true
             | some r =>
               if tagMatch r tag mask then SearchRes.res cur false
               else
                 if start = stepIdx dir cur then SearchRes.res (-1) false
                 else searchTagLoop f v tag mask dir start
                   (checkIdx (FileView.len f v) (stepIdx dir cur)) n) from rfl] at h
    cases hgi : FileView.getIndex v cur with
    | none =>
      simp only [hgi] at h
      exact SearchRes.noConfusion h
    | some abs =>
      simp only [hgi] at h
      cases hit : f.itemAt abs with
      | none =>
        simp only [hit] at h
        injection h with h1 h2
        exact Bool.noConfusion h2
      | some r =>
        simp only [hit] at h
        by_cases hm : tagMatch r tag mask = true
        · rw [if_pos hm] at h
          injection h with h1 h2
          subst h1
          exact ⟨abs, r, hgi, hit, hm⟩
        · rw [if_neg hm] at h
          by_cases hst : start = stepIdx dir cur
          · rw [if_pos hst] at h
            injection h with h1 h2
            omega
          · rw [if_neg hst] at h
            exact ih _ i h hi

theorem checkIdx_id (len : Nat) (i : Int) (h0 : 0 ≤ i) (h1 : i < (len : Int)) :
    checkIdx len i = i := by
  unfold checkIdx
  rw [if_neg (by omega), if_neg (by omega)]

/-- Claim C6: `SearchTag` tests substring containment of the mask in the
named field's string encoding, regardless of the regexp flag: (1) the
result never depends on the flag (the body never reads it); (2) the
per-line match test holds iff the record has the field and the field's
string encoding contains the mask as a contiguous substring; (3) a found
result always points at a line passing that test; (4) when the start line
passes it, the search returns it at once. -/
theorem c6_searchtag_ignores_regexp_flag (f : FileRec) (v : FileView) (tag mask : String)
    (frm : Int) (dir : SearchDirection)
    (hfrm : 0 ≤ frm ∧ frm < (FileView.len f v : Int)) :
    (∀ rx1 rx2 : Bool, FileView.SearchTag f v tag mask frm dir rx1 =
        FileView.SearchTag f v tag mask frm dir rx2) ∧
    (∀ r : Rec, tagMatch r tag mask = true ↔
        ∃ t, lookupTag r tag = some t ∧
          ∃ s u, (tagToString t).toList = s ++ mask.toList ++ u) ∧
    (∀ (rx : Bool) (i : Int),
        FileView.SearchTag f v tag mask frm dir rx = .res i false → 0 ≤ i →
          ∃ abs r, FileView.getIndex v i = some abs ∧ f.itemAt abs = some r ∧
            tagMatch r tag mask = true) ∧
    (∀ (rx : Bool) (abs : Int) (r : Rec),
        FileView.getIndex v frm = some abs → f.itemAt abs = some r →
        tagMatch r tag mask = true →
        FileView.SearchTag f v tag mask frm dir rx = .res frm false) := by
  have hstart : checkIdx (FileView.len f v) frm = frm :=
    checkIdx_id (FileView.len f v) frm hfrm.1 hfrm.2
  refine ⟨fun _ _ => rfl, ?_, ?_, ?_⟩
  · intro r
    unfold tagMatch
    cases hlk : lookupTag r tag with
    | none =>
      simp only [hlk]
      constructor
      · intro hc
        simp at hc
      · rintro ⟨t, ht, _⟩
        exact Option.noConfusion ht
    | some t0 =>
      simp only [hlk]
      rw [isSubstr_iff]
      constructor
      · rintro ⟨s, u, hsu⟩
        exact ⟨t0, rfl, s, u, hsu⟩
      · rintro ⟨t, ht, s, u, hsu⟩
        injection ht with ht'
        subst ht'
        exact ⟨s, u, hsu⟩
  · intro rx i h hi
    have h' : searchTagLoop f v tag mask dir (checkIdx (FileView.len f v) frm)
        (checkIdx (FileView.len f v) frm) (FileView.len f v + 1) = .res i false := h
    exact searchTagLoop_found f v tag mask dir _ _ _ i h' hi
  · intro rx abs r hgi hit hm
    show searchTagLoop f v tag mask dir (checkIdx (FileView.len f v) frm)
        (checkIdx (FileView.len f v) frm) (FileView.len f v + 1) = .res frm false
    rw [hstart]
    simp only [searchTagLoop, hgi, hit, if_pos hm]

/-- Witness for C6 at a concrete file/view: tag search for `"b"` inside
field `msg` from line 1 finds line 1, and the regexp flag changes
nothing. -/
theorem c6_witness :
    FileView.SearchTag wfile {} "msg" "b" 1 .SearchForward true = .res 1 false ∧
      FileView.SearchTag wfile {} "msg" "b" 1 .SearchForward true =
        FileView.SearchTag wfile {} "msg" "b" 1 .SearchForward false := by
  have h := c6_searchtag_ignores_regexp_flag wfile {} "msg" "b" 1 .SearchForward
    (by constructor <;> decide)
  refine ⟨?_, h.1 true false⟩
  exact h.2.2.2 true 1 [("msg", GoVal.vstr "abc")] rfl rfl (by decide)

theorem filterMap_congr_mem {α β : Type} (l : List α) (F G : α → Option β)
    (h : ∀ a ∈ l, F a = G a) : l.filterMap F = l.filterMap G := by
  induction l with
  | nil => rfl
  | cons a t ih =>
    rw [List.filterMap_cons, List.filterMap_cons, h a (by simp),
      ih (fun x hx => h x (List.mem_cons_of_mem _ hx))]

theorem filterMap_guard (l : List Nat) (P : Nat → Bool) :
    l.filterMap (fun a => if P a then some a else none) = l.filter P := by
  induction l with
  | nil => rfl
  | cons a t ih =>
    rw [List.filterMap_cons, List.filter_cons]
    cases hP : P a
    · simp [hP, ih]
    · simp [hP, ih]

theorem range_guard_getD (l : List Nat) (P : Nat → Bool) :
    (List.range l.length).filterMap
        (fun i => if P (l.getD i 0) then some (l.getD i 0) else none) = l.filter P := by
  induction l with
  | nil => rfl
  | cons a t ih =>
    rw [List.length_cons, List.range_succ_eq_map, List.filterMap_cons, List.filterMap_map]
    have hcomp : ((fun i => if P ((a :: t).getD i 0) then some ((a :: t).getD i 0) else none)
        ∘ Nat.succ) = fun i => if P (t.getD i 0) then some (t.getD i 0) else none := by
      funext i
      simp [Function.comp, List.getD_cons_succ]
    rw [hcomp, ih, List.filter_cons]
    simp only [List.getD_cons_zero]
    cases hP : P a
    · simp [hP]
    · simp [hP]

theorem filterMap_some_eq_map {α β : Type} (l : List α) (g : α → β) :
    l.filterMap (fun a => some (g a)) = l.map g := by
  induction l with
  | nil => rfl
  | cons a t ih =>
    rw [List.filterMap_cons, List.map_cons]
    simp [ih]

theorem range_map_getD (l : List Nat) :
    (List.range l.length).map (fun i => l.getD i 0) = l := by
  induction l with
  | nil => rfl
  | cons a t ih =>
    rw [List.length_cons, List.range_succ_eq_map, List.map_cons, List.map_map]
    have hcomp : ((fun i => (a :: t).getD i 0) ∘ Nat.succ) = fun i => t.getD i 0 := by
      funext i
      simp [Function.comp, List.getD_cons_succ]
    rw [hcomp, ih]
    simp

theorem getD_mem_of_lt {l : List Nat} {i : Nat} (h : i < l.length) : l.getD i 0 ∈ l := by
  induction l generalizing i with
  | nil => simp at h
  | cons a t ih =>
    cases i with
    | zero => simp
    | succ j =>
      rw [List.getD_cons_succ]
      exact List.mem_cons_of_mem _ (ih (by simpa using h))

theorem itemAt_of_lt (f : FileRec) (p : Nat) (hp : p < f.lines.length) :
    f.itemAt (p : Int) = some (f.lines.getD p { raw := none, m := [] }).m := by
  unfold FileRec.itemAt
  rw [if_pos (by constructor <;> omega)]
  congr 2

theorem view_item_eq (f : FileRec) (v : FileView) (hwf : WFView f v) (i : Nat)
    (hi : i < FileView.len f v) :
    FileView.item f v i =
      some ((f.lines.getD (FileView.getIndexD v i) { raw := none, m := [] }).m) := by
  cases hv : v.index with
  | none =>
    have hlen : FileView.len f v = f.lines.length := by
      unfold FileView.len
      rw [hv]
    simp only [FileView.item, FileView.getIndexD, hv]
    exact itemAt_of_lt f i (hlen ▸ hi)
  | some l =>
    have hlen : FileView.len f v = l.length := by
      unfold FileView.len
      rw [hv]
    simp only [FileView.item, FileView.getIndexD, hv]
    rw [if_pos (hlen ▸ hi)]
    have hmem : l.getD i 0 ∈ l := getD_mem_of_lt (hlen ▸ hi)
    have hwf' : ∀ p ∈ l, p < f.lines.length := by
      unfold WFView at hwf
      rw [hv] at hwf
      exact hwf
    exact itemAt_of_lt f (l.getD i 0) (hwf' _ hmem)

theorem fit_level_ge (f : FileRec) (htags : f.tagNames = ["level", "time", "msg"]) (r : Rec) :
    f.fit r { Tag := "level", Mask := "info", Operator := .FOGreaterOrEqual } =
      match lookupTag r "level" with
      | some t => decide (decodeLevel "info" ≤ decodeLevel (tagToString t))
      | none => false := by
  unfold FileRec.fit
  rw [if_neg (by decide : ¬("level" = ""))]
  cases hlk : lookupTag r "level" with
  | none => simp [hlk]
  | some t =>
    simp only [hlk]
    simp [htags]

/-- Claim C5: filtering with tag = the configured level field, mask
`info`, operator `≥` keeps exactly the visible lines whose record has the
level field with rank at least info's rank — both the field value and the
mask go through the rank table, whose values and case/unknown behaviour
the trailing conjuncts pin down (`trace<debug<info<warn<error<fault`,
case-insensitive, unknown → −1). -/
theorem c5_level_filter_ge (f : FileRec) (v : FileView)
    (htags : f.tagNames = ["level", "time", "msg"]) (hwf : WFView f v) :
    (FileView.Filter f v { Tag := "level", Mask := "info", Operator := .FOGreaterOrEqual }).index
        = some ((FileView.visible f v).filter (fun p =>
            match lookupTag (f.lines.getD p { raw := none, m := [] }).m "level" with
            | some t => decide (2 ≤ decodeLevel (tagToString t))
            | none => false)) ∧
      decodeLevel "info" = 2 ∧ decodeLevel "warn" = 3 ∧ decodeLevel "error" = 4 ∧
      decodeLevel "fault" = 5 ∧ decodeLevel "trace" = 0 ∧ decodeLevel "debug" = 1 ∧
      decodeLevel "INFO" = 2 ∧ decodeLevel "unknown" = -1 := by
  have hinfo : decodeLevel "info" = 2 := by decide
  constructor
  · show some ((List.range (FileView.LinesCount f v)).filterMap _) = _
    have hcount : FileView.LinesCount f v = FileView.len f v := rfl
    rw [hcount]
    congr 1
    set P : Nat → Bool := fun p =>
      match lookupTag (f.lines.getD p { raw := none, m := [] }).m "level" with
      | some t => decide (2 ≤ decodeLevel (tagToString t))
      | none => false
    have hstep : ∀ i ∈ List.range (FileView.len f v),
        (match FileView.item f v i with
         | some r =>
           if f.fit r { Tag := "level", Mask := "info", Operator := .FOGreaterOrEqual } then
             some (FileView.getIndexD v i)
           else none
         | none => none) =
          (if P (FileView.getIndexD v i) then some (FileView.getIndexD v i) else none) := by
      intro i hi
      rw [List.mem_range] at hi
      simp only [view_item_eq f v hwf i hi]
      rw [fit_level_ge f htags, hinfo]
    rw [filterMap_congr_mem _ _ _ hstep]
    cases hv : v.index with
    | none =>
      have hlen : FileView.len f v = f.lines.length := by
        unfold FileView.len
        rw [hv]
      have hvis : FileView.visible f v = List.range f.lines.length := by
        unfold FileView.visible
        rw [hv]
      have hgd : ∀ i : Nat, FileView.getIndexD v i = i := by
        intro i
        unfold FileView.getIndexD
        rw [hv]
      simp only [hlen, hvis, hgd]
      exact filterMap_guard (List.range f.lines.length) P
    | some l =>
      have hlen : FileView.len f v = l.length := by
        unfold FileView.len
        rw [hv]
      have hvis : FileView.visible f v = l := by
        unfold FileView.visible
        rw [hv]
      have hgd : ∀ i : Nat, FileView.getIndexD v i = l.getD i 0 := by
        intro i
        unfold FileView.getIndexD
        rw [hv]
      simp only [hlen, hvis, hgd]
      exact range_guard_getD l P
  · refine ⟨hinfo, ?_, ?_, ?_, ?_, ?_, ?_, ?_⟩ <;> decide

/-- Witness for C5 at `wfile` (root view): line 0 has level `info`
(rank 2 ≥ 2, kept), line 1 has no level field (dropped). -/
theorem c5_level_filter_ge_witness :
    (FileView.Filter wfile {}
        { Tag := "level", Mask := "info", Operator := .FOGreaterOrEqual }).index = some [0] ∧
      decodeLevel "info" = 2 := by
  have hwf : WFView wfile ({} : FileView) := trivial
  have h := c5_level_filter_ge wfile {} rfl hwf
  refine ⟨?_, h.2.1⟩
  rw [h.1]
  rfl

/-- Claim C7: filtering a view with a filter every currently-visible line
satisfies yields a derived view whose absolute-position sequence is
exactly the parent's visible sequence, in order. -/
theorem c7_filter_idempotent (f : FileRec) (v : FileView) (q : Filter) (hwf : WFView f v)
    (hall : ∀ i, i < FileView.len f v → ∀ r, FileView.item f v i = some r →
      f.fit r q = true) :
    (FileView.Filter f v q).index = some (FileView.visible f v) := by
  show some ((List.range (FileView.LinesCount f v)).filterMap _) = _
  have hcount : FileView.LinesCount f v = FileView.len f v := rfl
  rw [hcount]
  congr 1
  have hstep : ∀ i ∈ List.range (FileView.len f v),
      (match FileView.item f v i with
       | some r => if f.fit r q then some (FileView.getIndexD v i) else none
       | none => none) = some (FileView.getIndexD v i) := by
    intro i hi
    rw [List.mem_range] at hi
    simp only [view_item_eq f v hwf i hi]
    rw [if_pos (hall i hi _ (view_item_eq f v hwf i hi))]
  rw [filterMap_congr_mem _ _ _ hstep, filterMap_some_eq_map]
  cases hv : v.index with
  | none =>
    have hlen : FileView.len f v = f.lines.length := by
      unfold FileView.len
      rw [hv]
    have hvis : FileView.visible f v = List.range f.lines.length := by
      unfold FileView.visible
      rw [hv]
    have hgd : FileView.getIndexD v = fun i : Nat => i := by
      funext i
      unfold FileView.getIndexD
      rw [hv]
    rw [hlen, hvis, hgd]
    exact List.map_id' _
  | some l =>
    have hlen : FileView.len f v = l.length := by
      unfold FileView.len
      rw [hv]
    have hvis : FileView.visible f v = l := by
      unfold FileView.visible
      rw [hv]
    have hgd : FileView.getIndexD v = fun i : Nat => l.getD i 0 := by
      funext i
      unfold FileView.getIndexD
      rw [hv]
    rw [hlen, hvis, hgd, range_map_getD]

/-- Witness for C7: the derived view over `wfile` showing only line 0
(level `info`), re-filtered with `level = info`, keeps exactly `[0]`. -/
theorem c7_filter_idempotent_witness :
    (FileView.Filter wfile c7view
        { Tag := "level", Mask := "info", Operator := .FOEqual }).index = some [0] := by
  have hwf : WFView wfile c7view := by
    intro p hp
    have hp0 : p = 0 := by simpa using hp
    subst hp0
    decide
  have hall : ∀ i, i < FileView.len wfile c7view → ∀ r,
      FileView.item wfile c7view i = some r →
        wfile.fit r { Tag := "level", Mask := "info", Operator := .FOEqual } = true := by
    intro i hi r hr
    have hlen1 : FileView.len wfile c7view = 1 := rfl
    have hi0 : i = 0 := by omega
    subst hi0
    have hx : FileView.item wfile c7view 0 = some [("level", GoVal.vstr "info")] := rfl
    rw [hx] at hr
    injection hr with hr'
    subst hr'
    decide
  have h := c7_filter_idempotent wfile c7view
    { Tag := "level", Mask := "info", Operator := .FOEqual } hwf hall
  rw [h]
  rfl

end Jlv
